import Mathlib

/- Verification of the Page Model Extraction & Navigation Resolution core of
   the accessibility web agent (`agent.py`).  The Python code is shallowly
   embedded: Python strings are Lean `String`s, `str.lower()` is modelled on
   the ASCII range by `Char.toLower` (which performs exactly Python's
   basic-latin case mapping), floating point scores are modelled by `ℚ`, and
   the parsed HTML document handed to the extractor is modelled as a tree of
   nodes.  Fallible operations return `Option` values or carry an explicit
   error component. -/

namespace Agent

/-- Scanner for Python `str.split()` with no separator argument: `acc` holds
the characters of the word currently being read, in reverse order. -/
def splitWsAux : List Char → List Char → List (List Char)
  | [], acc => if acc.isEmpty then [] else [acc.reverse]
  | c :: cs, acc =>
    if c.isWhitespace then
      if acc.isEmpty then splitWsAux cs [] else acc.reverse :: splitWsAux cs []
    else splitWsAux cs (c :: acc)

/-- Python `str.split()` with no separator argument, as used by
`normalize_text` and `find_best_match`: splits a character list at runs of
whitespace, discarding empty words. -/
def splitWs (l : List Char) : List (List Char) :=
  splitWsAux l []

/-- Python `' '.join(words)`: interleave a single space between words. -/
def joinWords : List (List Char) → List Char
  | [] => []
  | [w] => w
  | w :: ws => w ++ ' ' :: joinWords ws

/-- Embeds `AccessibilityAgent.normalize_text` (agent.py line 59):
`' '.join(text.lower().split())` — lowercase, collapse whitespace runs to
single spaces, trim. -/
def normalize_text (text : String) : String :=
  String.mk (joinWords (splitWs (text.toList.map Char.toLower)))

/-- Python substring test `needle in hay` on lists of characters. -/
def listInfix (needle : List Char) : List Char → Bool
  | [] => needle.isEmpty
  | c :: rest => needle.isPrefixOf (c :: rest) || listInfix needle rest

/-- Python substring test `needle in hay` on strings. -/
def pySubstr (needle hay : String) : Bool :=
  listInfix needle.toList hay.toList

/-- Python `str.strip()`: drop whitespace from both ends. -/
def pyStrip (s : String) : String :=
  String.mk (((s.toList.dropWhile Char.isWhitespace).reverse.dropWhile
    Char.isWhitespace).reverse)

/-- Python `str.startswith(pre)`. -/
def pyStartsWith (s pre : String) : Bool :=
  pre.toList.isPrefixOf s.toList

/-- Python `set(s.split())` for an already-normalized string `s`, as built by
`find_best_match` for both the target and each candidate. -/
def wordSet (s : String) : Finset (List Char) :=
  (splitWs s.toList).toFinset

/-- Word-overlap ratio `len(target_words & candidate_words) / len(target_words)`
computed by `find_best_match` for a normalized target `tn` and a normalized
candidate `cn` (in `ℚ`; division by zero yields `0`, but the code only
computes this when the target word set is non-empty; `mkRat a b` is the exact
rational `a / b`). -/
def overlapScore (tn cn : String) : ℚ :=
  mkRat ((wordSet tn ∩ wordSet cn).card : ℤ) ((wordSet tn).card)

/-- Overlap the loop of `find_best_match` computes for one candidate: the
candidate is normalized (`candidate_text = normalize_text(candidate)`) and
scored against the already-normalized target `tn`. -/
def candScore (tn : String) (candidate : String) : ℚ :=
  overlapScore tn (normalize_text candidate)

/-- Loop of `AccessibilityAgent.find_best_match` (agent.py lines 69-85): the
accumulator holds `(best_match, best_score)`; an exact normalized match
returns `(candidate, 1.0)` immediately; otherwise a candidate replaces the
accumulator when its overlap is strictly greater than `best_score` and at
least `threshold` (checked only when the target word set is non-empty). -/
def fbmLoop (tn : String) (threshold : ℚ) :
    List String → Option String × ℚ → Option String × ℚ
  | [], acc => acc
  | candidate :: rest, (bm, bs) =>
    if tn = normalize_text candidate then (some candidate, 1)
    else if (wordSet tn).Nonempty then
      if bs < candScore tn candidate ∧ threshold ≤ candScore tn candidate then
        fbmLoop tn threshold rest (some candidate, candScore tn candidate)
      else fbmLoop tn threshold rest (bm, bs)
    else fbmLoop tn threshold rest (bm, bs)

/-- Embeds `AccessibilityAgent.find_best_match` (agent.py lines 63-86). -/
def find_best_match (target : String) (candidates : List String)
    (threshold : ℚ) : Option String × ℚ :=
  fbmLoop (normalize_text target) threshold candidates (none, 0)

/-- A candidate beats the running best score `bs` when its score is strictly
above `bs` and at least `threshold` — the update condition of the loop. -/
def beats (tn : String) (threshold bs : ℚ) (c : String) : Bool :=
  decide (bs < candScore tn c) && decide (threshold ≤ candScore tn c)

/-- Maximum score over the candidates of `l` that beat `bs`, with base `bs`. -/
def runMax (tn : String) (threshold bs : ℚ) (l : List String) : ℚ :=
  ((l.filter (beats tn threshold bs)).map (candScore tn)).foldl max bs

/-- Modelled from the spec (§4.1): the word-overlap score
`|target_words ∩ candidate_words| / |target_words|`. -/
def specScore (target candidate : String) : ℚ :=
  overlapScore (normalize_text target) (normalize_text candidate)

/-- Modelled from the spec (§4.1): exact normalized equality short-circuits
with score 1.0; otherwise the highest-scoring candidate at or above
`threshold` is returned, the first candidate in iteration order winning ties,
and the result is `(none, 0.0)` when no candidate reaches the threshold or
the target's word set is empty. -/
def specBestMatch (target : String) (candidates : List String)
    (threshold : ℚ) : Option String × ℚ :=
  match candidates.find? (fun c => decide (normalize_text c = normalize_text target)) with
  | some c => (some c, 1)
  | none =>
    if ¬ (wordSet (normalize_text target)).Nonempty then (none, 0)
    else if (candidates.filter (fun c => decide (threshold ≤ specScore target c))).isEmpty
      then (none, 0)
    else
      match candidates.find? (fun c => decide (specScore target c =
          ((candidates.filter (fun c2 => decide (threshold ≤ specScore target c2))).map
            (specScore target)).foldl max 0)) with
      | some c => (some c,
          ((candidates.filter (fun c2 => decide (threshold ≤ specScore target c2))).map
            (specScore target)).foldl max 0)
      | none => (none, 0)

/-- The double-quote character, written by code point to model the regex
character class made of the two quote characters. -/
def quoteA : Char := Char.ofNat 34

/-- The single-quote character, written by code point. -/
def quoteB : Char := Char.ofNat 39

/-- Membership in the regex character class of the two quote characters. -/
def isQuote (c : Char) : Bool := c == quoteA || c == quoteB

/-- Membership in the complemented class excluding the two quote characters. -/
def notQuote (c : Char) : Bool := !isQuote c

/-- Abstract syntax of the fragment of Python regular expressions used by
`parse_user_command`: literals, ordered alternation, greedy option, sequence,
a greedy optional character class, a lazy one-or-more character class inside
the single capturing group, and the tail disjunction of a whitespace
character or end of input. -/
inductive RE where
  | lit (s : List Char)
  | alt2 (a b : RE)
  | opt (r : RE)
  | seq (a b : RE)
  | optCls (p : Char → Bool)
  | grp (p : Char → Bool)
  | wsOrEnd

/-- All ways a lazy one-or-more repetition of the class `p` can consume a
non-empty prefix, shortest first; each entry is `(consumed, remaining)`. -/
def lazyPlus (p : Char → Bool) : List Char → List (List Char × List Char)
  | [] => []
  | c :: rest =>
    if p c then ([c], rest) :: (lazyPlus p rest).map (fun pr => (c :: pr.1, pr.2))
    else []

/-- All matches of a pattern against a prefix of `s`, in Python backtracking
priority order; each entry is `(remaining input, captured group)`. -/
def REmatches : RE → List Char → List (List Char × Option (List Char))
  | .lit l, s => if l.isPrefixOf s then [(s.drop l.length, none)] else []
  | .alt2 a b, s => REmatches a s ++ REmatches b s
  | .opt r, s => REmatches r s ++ [(s, none)]
  | .seq a b, s =>
    (REmatches a s).flatMap (fun m1 =>
      (REmatches b m1.1).map (fun m2 => (m2.1, m1.2.orElse (fun _ => m2.2))))
  | .optCls p, s =>
    (match s with
      | c :: rest => if p c then [(rest, (none : Option (List Char)))] else []
      | [] => []) ++ [(s, none)]
  | .grp p, s => (lazyPlus p s).map (fun pr => (pr.2, some pr.1))
  | .wsOrEnd, s =>
    (match s with
      | c :: rest => if c.isWhitespace then [(rest, (none : Option (List Char)))] else []
      | [] => []) ++ (if s.isEmpty then [(s, (none : Option (List Char)))] else [])

/-- Python `re.search`: try each start position from the left; at the first
position with a match, return the highest-priority match's group(1). -/
def research (r : RE) : List Char → Option (List Char)
  | [] =>
    match REmatches r [] with
    | m :: _ => some (m.2.getD [])
    | [] => none
  | c :: rest =>
    match REmatches r (c :: rest) with
    | m :: _ => some (m.2.getD [])
    | [] => research r rest

/-- Literal pattern from a string. -/
def reLit (s : String) : RE := RE.lit s.toList

/-- Sequence of patterns, in order. -/
def reSeq : List RE → RE
  | [] => reLit ""
  | [r] => r
  | r :: rs => RE.seq r (reSeq rs)

/-- Ordered alternation of patterns (leftmost alternative tried first). -/
def reAlt : List RE → RE
  | [] => reLit ""
  | [r] => r
  | r :: rs => RE.alt2 r (reAlt rs)

/-- The optional quote `["\']?` around the capturing group. -/
def optQuote : RE := RE.optCls isQuote

/-- The capturing group `([^"\']+?)`. -/
def grpTarget : RE := RE.grp notQuote

/-- Section patterns of `parse_user_command` (agent.py lines 396-400), in
order. -/
def section_patterns : List RE :=
  [reSeq [RE.opt (reLit "can you "),
      reAlt [reLit "go", reLit "show", reLit "navigate", reLit "take"],
      reLit " ", RE.opt (reLit "me "), RE.opt (reLit "to "),
      RE.opt (reLit "the "), optQuote, grpTarget, optQuote, reLit " section"],
    reSeq [reAlt [reLit "show", reLit "display", reLit "read", reLit "view",
        reLit "open"],
      reLit " ", RE.opt (reLit "the "), optQuote, grpTarget, optQuote,
      reLit " section"],
    reSeq [optQuote, grpTarget, optQuote, reLit " section"]]

/-- Navigation patterns of `parse_user_command` (agent.py lines 402-406), in
order. -/
def navigation_patterns : List RE :=
  [reSeq [RE.opt (reLit "can you "),
      reAlt [reLit "go", reLit "navigate", reLit "take"],
      reLit " ", RE.opt (reLit "me "), RE.opt (reLit "to "),
      RE.opt (reLit "the "), optQuote, grpTarget, optQuote, RE.wsOrEnd],
    reSeq [reAlt [reLit "show", reLit "display", reLit "open"],
      reLit " ", RE.opt (reLit "the "), optQuote, grpTarget, optQuote,
      RE.wsOrEnd],
    reSeq [reAlt [reLit "click", reLit "select", reLit "choose"],
      reLit " ", RE.opt (reLit "on "), RE.opt (reLit "the "), optQuote,
      grpTarget, optQuote, RE.wsOrEnd]]

/-- First pattern of the list that matches, returning its captured group. -/
def firstPatternMatch : List RE → List Char → Option (List Char)
  | [], _ => none
  | r :: rs, s =>
    match research r s with
    | some g => some g
    | none => firstPatternMatch rs s

/-- Phrases of the `'back'` special command. -/
def back_phrases : List String := ["back", "previous page", "go back", "return"]

/-- Phrases of the `'describe_images'` special command. -/
def describe_image_phrases : List String :=
  ["describe image", "show image", "what is in the image"]

/-- Phrases of the `'summarize'` special command. -/
def summarize_phrases : List String :=
  ["summarize", "summary", "summarize this", "summarize page",
    "can you summarize"]

/-- Python `any(phrase in s for phrase in phrases)`. -/
def containsAnyPhrase (phrases : List String) (s : String) : Bool :=
  phrases.any (fun p => pySubstr p s)

/-- Result of `parse_user_command`: the typed command dictionary.  The
`section` and `navigation` commands carry `target` and `original_text`
(which the code sets to the same stripped captured group); `unknown`
carries the raw, non-normalized user input. -/
inductive Command where
  | back
  | describeImages
  | summarize
  | sectionCmd (target : String) (original_text : String)
  | navigation (target : String) (original_text : String)
  | unknown (original_text : String)
deriving DecidableEq, Repr

/-- Embeds `AccessibilityAgent.parse_user_command` (agent.py lines 379-434):
normalize the input, try the special-command phrase sets in order, then the
section patterns, then the navigation patterns, and fall back to `unknown`
with the original raw text. -/
def parse_user_command (user_input : String) : Command :=
  let input_lower := normalize_text user_input
  if containsAnyPhrase back_phrases input_lower then Command.back
  else if containsAnyPhrase describe_image_phrases input_lower then
    Command.describeImages
  else if containsAnyPhrase summarize_phrases input_lower then Command.summarize
  else
    match firstPatternMatch section_patterns input_lower.toList with
    | some g =>
      Command.sectionCmd (pyStrip (String.mk g)) (pyStrip (String.mk g))
    | none =>
      match firstPatternMatch navigation_patterns input_lower.toList with
      | some g =>
        Command.navigation (pyStrip (String.mk g)) (pyStrip (String.mk g))
      | none => Command.unknown user_input

/-- Parsed HTML node, as BeautifulSoup presents it to `extract_page_content`:
either a text node or an element with a tag name, attributes and children. -/
inductive Node where
  | text (s : String)
  | elem (tag : String) (attrs : List (String × String)) (children : List Node)

mutual

/-- BeautifulSoup `strings`: the descendant text node strings of a node, in
document order. -/
def textNodes : Node → List String
  | .text s => [s]
  | .elem _ _ children => textNodesList children

/-- The `strings` of a list of sibling nodes, in document order. -/
def textNodesList : List Node → List String
  | [] => []
  | n :: ns => textNodes n ++ textNodesList ns

end

/-- BeautifulSoup `Tag.text`: concatenation of all descendant strings. -/
def nodeText (n : Node) : String := String.join (textNodes n)

/-- BeautifulSoup `stripped_strings`: each descendant string stripped, with
whitespace-only strings dropped. -/
def strippedStrings (n : Node) : List String :=
  ((textNodes n).map pyStrip).filter (fun s => s != "")

/-- The flattened text `' '.join(elem.stripped_strings)` used for `p`/`div`
containers in the `main_text` loop. -/
def paraText (n : Node) : String :=
  String.intercalate " " (strippedStrings n)

/-- Attribute lookup `tag.get(key, default)` (the first binding wins). -/
def getAttr (attrs : List (String × String)) (key : String) : Option String :=
  (attrs.find? (fun p => p.1 == key)).map Prod.snd

mutual

/-- BeautifulSoup `soup.find_all(tags)` restricted to one subtree: matching
elements in document order, an element listed before its descendants. -/
def findAllNode (tags : List String) : Node → List Node
  | .text _ => []
  | .elem tag attrs children =>
    (if tags.contains tag then [Node.elem tag attrs children] else []) ++
      findAllList tags children

/-- `find_all` over a forest of sibling subtrees. -/
def findAllList (tags : List String) : List Node → List Node
  | [] => []
  | n :: ns => findAllNode tags n ++ findAllList tags ns

end

mutual

/-- Every element node of a subtree in document order (no tag filter). -/
def allElemsNode : Node → List Node
  | .text _ => []
  | .elem tag attrs children =>
    Node.elem tag attrs children :: allElemsList children

/-- Every element node of a forest in document order. -/
def allElemsList : List Node → List Node
  | [] => []
  | n :: ns => allElemsNode n ++ allElemsList ns

end

/-- Whether a node is an element whose tag is in `tags`. -/
def isTagIn (tags : List String) : Node → Bool
  | .text _ => false
  | .elem tag _ _ => tags.contains tag

/-- One heading entry of the page model: `{'text': ..., 'level': ...,
'id': ...}`. -/
structure Heading where
  text : String
  level : Nat
  id : String
deriving DecidableEq, Repr

/-- Python `int(h.name[1])` for a heading tag name such as `"h2"`. -/
def tagLevel (tag : String) : Nat :=
  match tag.toList with
  | _ :: c :: _ => c.toNat - 48
  | _ => 0

/-- The heading entry built from one node found by the headings loop of
`extract_page_content` (agent.py lines 162-170): skipped when the stripped
text is empty. -/
def headingEntry : Node → Option Heading
  | .text _ => none
  | .elem tag attrs children =>
    if pyStrip (nodeText (Node.elem tag attrs children)) = "" then none
    else some ⟨pyStrip (nodeText (Node.elem tag attrs children)), tagLevel tag,
      (getAttr attrs "id").getD ""⟩

/-- The tags scanned by the headings loop. -/
def heading_tags : List String := ["h1", "h2", "h3"]

/-- Embeds the headings loop of `extract_page_content` (agent.py lines
162-170): `soup.find_all(['h1','h2','h3'])` with empty-text headings
skipped. -/
def extract_headings (doc : List Node) : List Heading :=
  (findAllList heading_tags doc).filterMap headingEntry

/-- Modelled from the spec (§4.2, C8): among all elements of the document in
DOM order, exactly the level-1 to level-3 headings with non-empty stripped
text, carrying the stripped text, the tag digit, and the `id` attribute. -/
def headingSpecEntry : Node → Option Heading
  | .text _ => none
  | .elem tag attrs children =>
    if (tag = "h1" ∨ tag = "h2" ∨ tag = "h3") ∧
        pyStrip (nodeText (Node.elem tag attrs children)) ≠ "" then
      some ⟨pyStrip (nodeText (Node.elem tag attrs children)), tagLevel tag,
        (getAttr attrs "id").getD ""⟩
    else none

/-- The tags scanned by the sectioned-text (`main_text`) loop. -/
def main_tags : List String := ["h1", "h2", "h3", "p", "div"]

/-- The paragraph list stored under a section key (Python
`content['main_text'][k]`); mirrors an insertion-ordered dict as an
association list with unique keys. -/
def sectGet (sections : List (String × List String)) (k : String) :
    List String :=
  ((sections.find? (fun p => p.1 == k)).map Prod.snd).getD []

/-- Appending one paragraph to the section keyed `k` (Python
`content['main_text'][k].append(t)`). -/
def sectAppend (sections : List (String × List String)) (k : String)
    (t : String) : List (String × List String) :=
  sections.map (fun p => if p.1 = k then (p.1, p.2 ++ [t]) else p)

/-- Heading branch of the `main_text` loop (agent.py lines 210-213): switch
the current section to the heading's stripped text, creating the section
only when no section with that title exists yet. -/
def headingStep (sections : List (String × List String)) (t : String) :
    List (String × List String) × String :=
  (if t ∈ sections.map Prod.fst then sections else sections ++ [(t, [])], t)

/-- Paragraph/container branch of the `main_text` loop (agent.py lines
214-217): append the flattened stripped text to the current section unless
it is empty or an existing entry of that section already contains it as a
substring. -/
def paraStep (sections : List (String × List String)) (cur : String)
    (t : String) : List (String × List String) :=
  if (t != "") && (sectGet sections cur).all (fun e => !pySubstr t e) then
    sectAppend sections cur t
  else sections

/-- One iteration of the `main_text` loop over a found element. -/
def mainTextStep (st : List (String × List String) × String) (n : Node) :
    List (String × List String) × String :=
  match n with
  | .text _ => st
  | .elem tag attrs children =>
    if tag ∈ heading_tags then
      headingStep st.1 (pyStrip (nodeText (Node.elem tag attrs children)))
    else if tag = "p" ∨ tag = "div" then
      (paraStep st.1 st.2 (paraText (Node.elem tag attrs children)), st.2)
    else st

/-- Embeds the sectioned-text loop of `extract_page_content` (agent.py lines
205-217): a single forward pass over the found elements starting from the
default section `"Main Content"`. -/
def extract_main_text (doc : List Node) : List (String × List String) :=
  ((findAllList main_tags doc).foldl mainTextStep
    ([("Main Content", [])], "Main Content")).1

/-- One link entry of the page model (agent.py lines 188-192). -/
structure LinkInfo where
  text : String
  description : String
  location : String
deriving DecidableEq, Repr

/-- One image entry of the page model (agent.py lines 199-203). -/
structure ImageInfo where
  src : String
  alt : String
  context : String
deriving DecidableEq, Repr

/-- The page model `extract_page_content` builds (agent.py lines 154-160):
title, headings, links, images and the sectioned `main_text` mapping. -/
structure PageModel where
  title : String
  headings : List Heading
  links : List LinkInfo
  images : List ImageInfo
  main_text : List (String × List String)
deriving DecidableEq, Repr

/-- Errors of the navigation session: an exhausted locator cascade, or
`back()` on an empty history (surfaced in the code as conversational
messages, agent.py lines 612 and 616). -/
inductive AgentError where
  | NoHistory
  | ElementNotFound
deriving DecidableEq, Repr

/-- The navigation session state of `AccessibilityAgent` (agent.py lines
52-57): current URL, current page model, conversation history, the
navigation history stack (kept as the Python list, pushed and popped at its
end; entries are the pushed `current_url` values, which are optional) and
the current section.  The transient Discord status message is an I/O handle,
not session data, and is not modelled. -/
structure Session where
  current_url : Option String
  current_page : Option PageModel
  conversation_history : List String
  navigation_history : List (Option String)
  current_section : Option String
deriving DecidableEq, Repr

/-- URL scheme completion performed by `navigate_to_url` (agent.py lines
363-364). -/
def withScheme (url : String) : String :=
  if pyStartsWith url "http://" || pyStartsWith url "https://" then url
  else "https://" ++ url

/-- Embeds the success path of `AccessibilityAgent.navigate_to_url`
(agent.py lines 360-374): the browser loads `url` and the extracted page
model `pg` replaces the current one; only `current_url` and `current_page`
are assigned. -/
def navigate_to_url (s : Session) (url : String) (pg : PageModel) : Session :=
  { s with current_url := some (withScheme url), current_page := some pg }

/-- Embeds the `click_link` branch of `process_user_input` (agent.py lines
600-612): when the element was found, the pre-click `current_url` is
appended to `navigation_history`, then the freshly extracted page model `pg`
and the landed URL replace the current state; when the element was not
found, the session is unchanged and the failure is reported. -/
def click_link (s : Session) (found : Bool) (landedUrl : String)
    (pg : PageModel) : Session × Option AgentError :=
  if found then
    ({ s with
        navigation_history := s.navigation_history ++ [s.current_url],
        current_page := some pg,
        current_url := some landedUrl }, none)
  else (s, some AgentError.ElementNotFound)

/-- Embeds the `go_back` branch of `process_user_input` (agent.py lines
614-622): with an empty history the session is unchanged and `NoHistory` is
reported; otherwise the last pushed URL is popped into `current_url` and the
re-extracted page model `pg` replaces the current one. -/
def go_back (s : Session) (pg : PageModel) : Session × Option AgentError :=
  match s.navigation_history.getLast? with
  | none => (s, some AgentError.NoHistory)
  | some u =>
    ({ s with
        current_url := u,
        current_page := some pg,
        navigation_history := s.navigation_history.dropLast }, none)

/-- One candidate element of the rendered page, as the locator cascade of
`find_and_click_element` sees it: whether it is an anchor, its text content,
its `aria-label`/`title`/`alt` attributes, and whether the driver considers
it clickable (visible and enabled). -/
structure DomElem where
  isLink : Bool
  text : String
  ariaLabel : Option String
  titleAttr : Option String
  altAttr : Option String
  clickable : Bool
deriving DecidableEq, Repr

/-- Python `str.lower()` / the XPath `translate` lowering on the ASCII
range, lifted to strings. -/
def asciiLower (s : String) : String :=
  String.mk (s.toList.map Char.toLower)

/-- Outcome of one `WebDriverWait` stage: the first element the query
locates succeeds only if it is clickable; otherwise the stage times out
silently. -/
def stageResult (found : Option DomElem) : Option DomElem :=
  match found with
  | some e => if e.clickable then some e else none
  | none => none

/-- Stage 1 of the cascade (agent.py lines 246-253): exact link text. -/
def byLinkText (dom : List DomElem) (target : String) : Option DomElem :=
  stageResult (dom.find? (fun e => e.isLink && (e.text == target)))

/-- Stage 2 (agent.py lines 255-262): partial (substring) link text. -/
def byPartialLinkText (dom : List DomElem) (target : String) : Option DomElem :=
  stageResult (dom.find? (fun e => e.isLink && pySubstr target e.text))

/-- Stage 3 (agent.py lines 264-272): case-insensitive exact-or-substring
match against the text content of any element. -/
def byTextContent (dom : List DomElem) (target : String) : Option DomElem :=
  stageResult (dom.find? (fun e =>
    (asciiLower e.text == asciiLower target) ||
      pySubstr (asciiLower target) (asciiLower e.text)))

/-- Stage 4 (agent.py lines 274-282): exact `aria-label`, `title` or `alt`
attribute match. -/
def byAttr (dom : List DomElem) (target : String) : Option DomElem :=
  stageResult (dom.find? (fun e =>
    (e.ariaLabel == some target) || (e.titleAttr == some target) ||
      (e.altAttr == some target)))

/-- Embeds `AccessibilityAgent.find_and_click_element` (agent.py lines
243-286): the four stages are tried in order, each failure is silent, the
first success wins, and exhaustion yields `none` (the function never
throws — every failure path returns `None`). -/
def find_and_click_element (dom : List DomElem) (target : String) :
    Option DomElem :=
  (byLinkText dom target).orElse (fun _ =>
    (byPartialLinkText dom target).orElse (fun _ =>
      (byTextContent dom target).orElse (fun _ => byAttr dom target)))

/- ===== Supporting lemmas ===== -/

theorem splitWsAux_good : ∀ (l acc : List Char),
    (∀ c ∈ acc, c.isWhitespace = false) →
    ∀ w ∈ splitWsAux l acc, w ≠ [] ∧ ∀ c ∈ w, c.isWhitespace = false := by
  intro l
  induction l with
  | nil =>
    intro acc hacc w hw
    simp only [splitWsAux] at hw
    by_cases h : acc.isEmpty
    · simp [h] at hw
    · simp [h] at hw
      subst hw
      constructor
      · simp [List.isEmpty_iff] at h
        simpa using h
      · intro c hc
        exact hacc c (by simpa using hc)
  | cons c cs ih =>
    intro acc hacc w hw
    simp only [splitWsAux] at hw
    by_cases hws : c.isWhitespace
    · simp only [hws, if_true] at hw
      by_cases h : acc.isEmpty
      · simp only [h, if_true] at hw
        exact ih [] (by simp) w hw
      · simp only [h, if_false] at hw
        rcases List.mem_cons.mp hw with h1 | h1
        · subst h1
          constructor
          · simp [List.isEmpty_iff] at h
            simpa using h
          · intro d hd
            exact hacc d (by simpa using hd)
        · exact ih [] (by simp) w h1
    · simp only [hws, if_false] at hw
      refine ih (c :: acc) ?_ w hw
      intro d hd
      rcases List.mem_cons.mp hd with h1 | h1
      · subst h1
        simpa using hws
      · exact hacc d h1

theorem splitWsAux_chars : ∀ (l acc : List Char) (w : List Char),
    w ∈ splitWsAux l acc → ∀ c ∈ w, c ∈ l ∨ c ∈ acc := by
  intro l
  induction l with
  | nil =>
    intro acc w hw c hc
    simp only [splitWsAux] at hw
    by_cases h : acc.isEmpty
    · simp [h] at hw
    · simp [h] at hw
      subst hw
      right
      simpa using hc
  | cons a cs ih =>
    intro acc w hw c hc
    simp only [splitWsAux] at hw
    by_cases hws : a.isWhitespace
    · simp only [hws, if_true] at hw
      by_cases h : acc.isEmpty
      · simp only [h, if_true] at hw
        rcases ih [] w hw c hc with h1 | h1
        · exact Or.inl (List.mem_cons_of_mem _ h1)
        · simp at h1
      · simp only [h, if_false] at hw
        rcases List.mem_cons.mp hw with h1 | h1
        · subst h1
          right
          simpa using hc
        · rcases ih [] w h1 c hc with h2 | h2
          · exact Or.inl (List.mem_cons_of_mem _ h2)
          · simp at h2
    · simp only [hws, if_false] at hw
      rcases ih (a :: acc) w hw c hc with h1 | h1
      · exact Or.inl (List.mem_cons_of_mem _ h1)
      · rcases List.mem_cons.mp h1 with h2 | h2
        · exact Or.inl (h2 ▸ List.mem_cons_self _ _)
        · exact Or.inr h2

theorem splitWs_good (l : List Char) :
    ∀ w ∈ splitWs l, w ≠ [] ∧ ∀ c ∈ w, c.isWhitespace = false :=
  splitWsAux_good l [] (by simp)

theorem splitWs_chars (l : List Char) (w : List Char) (hw : w ∈ splitWs l) :
    ∀ c ∈ w, c ∈ l := by
  intro c hc
  rcases splitWsAux_chars l [] w hw c hc with h | h
  · exact h
  · simp at h

theorem splitWsAux_append_word (w : List Char) :
    ∀ (l acc : List Char), (∀ c ∈ w, c.isWhitespace = false) →
    splitWsAux (w ++ l) acc = splitWsAux l (w.reverse ++ acc) := by
  induction w with
  | nil => simp
  | cons c w' ih =>
    intro l acc hw
    have hc : c.isWhitespace = false := hw c (List.mem_cons_self _ _)
    simp only [List.cons_append, splitWsAux, hc, if_false, Bool.false_eq_true,
      List.append_eq]
    rw [ih l (c :: acc) (fun d hd => hw d (List.mem_cons_of_mem _ hd))]
    simp

theorem splitWs_word_append (w rest : List Char) (hne : w ≠ [])
    (hgood : ∀ c ∈ w, c.isWhitespace = false) :
    splitWs (w ++ ' ' :: rest) = w :: splitWs rest := by
  unfold splitWs
  rw [splitWsAux_append_word w (' ' :: rest) [] hgood]
  have hws : (' ' : Char).isWhitespace = true := by decide
  have hrev : (w.reverse ++ []).isEmpty = false := by
    simp [List.isEmpty_iff, hne]
  simp only [splitWsAux, hws, if_true, hrev, if_false]
  simp

theorem splitWs_single_word (w : List Char) (hne : w ≠ [])
    (hgood : ∀ c ∈ w, c.isWhitespace = false) :
    splitWs w = [w] := by
  unfold splitWs
  rw [show w = w ++ [] by simp, splitWsAux_append_word w [] [] hgood]
  have hrev : (w.reverse ++ []).isEmpty = false := by
    simp [List.isEmpty_iff, hne]
  simp only [splitWsAux, hrev, if_false]
  simp

theorem splitWs_joinWords : ∀ (ws : List (List Char)),
    (∀ w ∈ ws, w ≠ [] ∧ ∀ c ∈ w, c.isWhitespace = false) →
    splitWs (joinWords ws) = ws := by
  intro ws
  induction ws with
  | nil => intro _; rfl
  | cons w ws' ih =>
    intro hgood
    cases ws' with
    | nil =>
      have h := hgood w (List.mem_cons_self _ _)
      simpa [joinWords] using splitWs_single_word w h.1 h.2
    | cons w2 ws'' =>
      have h := hgood w (List.mem_cons_self _ _)
      show splitWs (w ++ ' ' :: joinWords (w2 :: ws'')) = w :: w2 :: ws''
      rw [splitWs_word_append w _ h.1 h.2]
      rw [ih (fun u hu => hgood u (List.mem_cons_of_mem _ hu))]

theorem map_joinWords (f : Char → Char) (hf : f ' ' = ' ') :
    ∀ ws : List (List Char),
      (joinWords ws).map f = joinWords (ws.map (List.map f)) := by
  intro ws
  induction ws with
  | nil => rfl
  | cons w ws' ih =>
    cases ws' with
    | nil => rfl
    | cons w2 ws'' =>
      show (w ++ ' ' :: joinWords (w2 :: ws'')).map f
        = w.map f ++ ' ' :: joinWords ((w2 :: ws'').map (List.map f))
      rw [List.map_append, List.map_cons, hf, ih]

theorem toLower_toLower (c : Char) : c.toLower.toLower = c.toLower := by
  unfold Char.toLower
  by_cases h : c.toNat ≥ 65 ∧ c.toNat ≤ 90
  · rw [if_pos h]
    have hv : (c.toNat + 32).isValidChar := by
      rcases h with ⟨_, h2⟩
      exact Or.inl (by omega)
    have ht : (Char.ofNat (c.toNat + 32)).toNat = c.toNat + 32 := by
      rw [Char.ofNat, dif_pos hv]
      rfl
    rw [if_neg]
    rw [ht]
    omega
  · rw [if_neg h, if_neg h]

theorem list_map_eq_self {α : Type} (f : α → α) :
    ∀ (L : List α), (∀ x ∈ L, f x = x) → L.map f = L := by
  intro L
  induction L with
  | nil => intro _; rfl
  | cons x xs ih =>
    intro h
    simp only [List.map_cons, h x (List.mem_cons_self _ _),
      ih (fun y hy => h y (List.mem_cons_of_mem _ hy))]

theorem normalize_text_idem (x : String) :
    normalize_text (normalize_text x) = normalize_text x := by
  unfold normalize_text
  congr 1
  set l0 := x.toList.map Char.toLower with hl0
  set ws := splitWs l0 with hws
  have htl : (String.mk (joinWords ws)).toList = joinWords ws := rfl
  rw [htl]
  rw [map_joinWords Char.toLower (by decide) ws]
  have hfix : ws.map (List.map Char.toLower) = ws := by
    apply list_map_eq_self
    intro w hw
    apply list_map_eq_self
    intro c hc
    have hcl : c ∈ l0 := splitWs_chars l0 w hw c hc
    rw [hl0] at hcl
    rcases List.mem_map.mp hcl with ⟨c0, _, hc0⟩
    rw [← hc0]
    exact toLower_toLower c0
  rw [hfix]
  exact congrArg joinWords (splitWs_joinWords ws (splitWs_good l0))

theorem le_foldl_max : ∀ (l : List ℚ) (b : ℚ), b ≤ l.foldl max b := by
  intro l
  induction l with
  | nil => intro b; simp
  | cons x xs ih =>
    intro b
    rw [List.foldl_cons]
    exact le_trans (le_max_left b x) (ih (max b x))

theorem mem_le_foldl_max : ∀ (l : List ℚ) (b x : ℚ), x ∈ l → x ≤ l.foldl max b := by
  intro l
  induction l with
  | nil => intro b x hx; simp at hx
  | cons y ys ih =>
    intro b x hx
    rw [List.foldl_cons]
    rcases List.mem_cons.mp hx with h | h
    · subst h
      exact le_trans (le_max_right b x) (le_foldl_max ys (max b x))
    · exact ih (max b y) x h

theorem foldl_max_choice : ∀ (l : List ℚ) (b : ℚ),
    l.foldl max b = b ∨ l.foldl max b ∈ l := by
  intro l
  induction l with
  | nil => intro b; left; rfl
  | cons x xs ih =>
    intro b
    rw [List.foldl_cons]
    rcases ih (max b x) with h | h
    · rw [h]
      rcases max_choice b x with h2 | h2
      · exact Or.inl h2
      · exact Or.inr (by rw [h2]; exact List.mem_cons_self _ _)
    · exact Or.inr (List.mem_cons_of_mem _ h)

theorem foldl_max_le : ∀ (l : List ℚ) (b m : ℚ), b ≤ m → (∀ x ∈ l, x ≤ m) →
    l.foldl max b ≤ m := by
  intro l
  induction l with
  | nil => intro b m hb _; simpa using hb
  | cons x xs ih =>
    intro b m hb hl
    rw [List.foldl_cons]
    exact ih (max b x) m (max_le hb (hl x (List.mem_cons_self _ _)))
      (fun y hy => hl y (List.mem_cons_of_mem _ hy))

theorem beats_iff (tn : String) (threshold bs : ℚ) (c : String) :
    beats tn threshold bs c = true ↔
      bs < candScore tn c ∧ threshold ≤ candScore tn c := by
  simp [beats]

theorem beats_le_runMax (tn : String) (threshold bs : ℚ) (l : List String)
    (c : String) (hc : c ∈ l) (hb : beats tn threshold bs c = true) :
    candScore tn c ≤ runMax tn threshold bs l :=
  mem_le_foldl_max _ _ _ (List.mem_map_of_mem _ (List.mem_filter.mpr ⟨hc, hb⟩))

theorem runMax_choice (tn : String) (threshold bs : ℚ) (l : List String) :
    runMax tn threshold bs l = bs ∨
      ∃ c ∈ l, beats tn threshold bs c = true ∧
        runMax tn threshold bs l = candScore tn c := by
  rcases foldl_max_choice ((l.filter (beats tn threshold bs)).map (candScore tn)) bs
    with h | h
  · exact Or.inl h
  · rcases List.mem_map.mp h with ⟨c, hcf, hcs⟩
    rcases List.mem_filter.mp hcf with ⟨hcl, hcb⟩
    exact Or.inr ⟨c, hcl, hcb, hcs.symm⟩

theorem runMax_gt_of_any (tn : String) (threshold bs : ℚ) (l : List String)
    (h : l.any (beats tn threshold bs) = true) :
    bs < runMax tn threshold bs l := by
  rcases List.any_eq_true.mp h with ⟨c, hcl, hcb⟩
  exact lt_of_lt_of_le ((beats_iff tn threshold bs c).mp hcb).1
    (beats_le_runMax tn threshold bs l c hcl hcb)

theorem runMax_of_not_any (tn : String) (threshold bs : ℚ) (l : List String)
    (h : l.any (beats tn threshold bs) = false) :
    runMax tn threshold bs l = bs := by
  have hnil : l.filter (beats tn threshold bs) = [] := by
    rw [List.filter_eq_nil_iff]
    intro c hc hcb
    have : l.any (beats tn threshold bs) = true :=
      List.any_eq_true.mpr ⟨c, hc, by simpa using hcb⟩
    rw [h] at this
    exact Bool.false_ne_true this
  unfold runMax
  rw [hnil]
  rfl

theorem runMax_cons_of_not_beat (tn : String) (threshold bs : ℚ) (c : String)
    (rest : List String) (hb : beats tn threshold bs c = false) :
    runMax tn threshold bs (c :: rest) = runMax tn threshold bs rest := by
  unfold runMax
  rw [List.filter_cons_of_neg (by simp [hb])]

theorem runMax_cons_of_beat (tn : String) (threshold bs : ℚ) (c : String)
    (rest : List String) (hb : beats tn threshold bs c = true) :
    runMax tn threshold bs (c :: rest)
      = runMax tn threshold (candScore tn c) rest := by
  rcases (beats_iff tn threshold bs c).mp hb with ⟨hlt, hth⟩
  unfold runMax
  rw [List.filter_cons_of_pos hb, List.map_cons, List.foldl_cons,
    max_eq_right (le_of_lt hlt)]
  apply le_antisymm
  · apply foldl_max_le
    · exact le_foldl_max _ _
    · intro x hx
      rcases List.mem_map.mp hx with ⟨d, hdf, hdx⟩
      rcases List.mem_filter.mp hdf with ⟨hdl, hdb⟩
      subst hdx
      rcases le_or_lt (candScore tn d) (candScore tn c) with hle | hgt
      · exact le_trans hle (le_foldl_max _ _)
      · have hbd : beats tn threshold (candScore tn c) d = true :=
          (beats_iff _ _ _ _).mpr ⟨hgt, ((beats_iff _ _ _ _).mp hdb).2⟩
        exact mem_le_foldl_max _ _ _
          (List.mem_map_of_mem _ (List.mem_filter.mpr ⟨hdl, hbd⟩))
  · apply foldl_max_le
    · exact le_foldl_max _ _
    · intro x hx
      rcases List.mem_map.mp hx with ⟨d, hdf, hdx⟩
      rcases List.mem_filter.mp hdf with ⟨hdl, hdb⟩
      subst hdx
      rcases (beats_iff _ _ _ _).mp hdb with ⟨hgt, hthd⟩
      have hbd : beats tn threshold bs d = true :=
        (beats_iff _ _ _ _).mpr ⟨lt_trans hlt hgt, hthd⟩
      exact mem_le_foldl_max _ _ _
        (List.mem_map_of_mem _ (List.mem_filter.mpr ⟨hdl, hbd⟩))

theorem fbmLoop_char (tn : String) (threshold : ℚ) :
    ∀ (l : List String) (bm : Option String) (bs : ℚ),
      (∀ c ∈ l, normalize_text c ≠ tn) →
      (wordSet tn).Nonempty →
      fbmLoop tn threshold l (bm, bs) =
        if l.any (beats tn threshold bs) = true then
          (l.find? (fun c => decide (candScore tn c = runMax tn threshold bs l)),
            runMax tn threshold bs l)
        else (bm, bs) := by
  intro l
  induction l with
  | nil =>
    intro bm bs _ _
    simp [fbmLoop]
  | cons c rest ih =>
    intro bm bs hne htw
    have hcne : ¬ (tn = normalize_text c) :=
      fun h => hne c (List.mem_cons_self _ _) h.symm
    have hrne : ∀ d ∈ rest, normalize_text d ≠ tn :=
      fun d hd => hne d (List.mem_cons_of_mem _ hd)
    simp only [fbmLoop, if_neg hcne, if_pos htw]
    by_cases hb : bs < candScore tn c ∧ threshold ≤ candScore tn c
    · have hbeat : beats tn threshold bs c = true := (beats_iff _ _ _ _).mpr hb
      rw [if_pos hb, ih (some c) (candScore tn c) hrne htw]
      have hanyc : (c :: rest).any (beats tn threshold bs) = true := by
        simp [List.any_cons, hbeat]
      rw [if_pos hanyc, runMax_cons_of_beat tn threshold bs c rest hbeat]
      by_cases hr : rest.any (beats tn threshold (candScore tn c)) = true
      · rw [if_pos hr]
        have hlt : candScore tn c < runMax tn threshold (candScore tn c) rest :=
          runMax_gt_of_any tn threshold (candScore tn c) rest hr
        rw [List.find?_cons_of_neg _ (by simp [ne_of_lt hlt])]
      · rw [if_neg hr]
        rw [runMax_of_not_any tn threshold (candScore tn c) rest
          (by simpa using hr)]
        rw [List.find?_cons_of_pos _ (by simp)]
    · have hbeat : beats tn threshold bs c = false := by
        cases hbe : beats tn threshold bs c
        · rfl
        · exact absurd ((beats_iff _ _ _ _).mp hbe) hb
      rw [if_neg hb, ih bm bs hrne htw]
      have hanyc : (c :: rest).any (beats tn threshold bs)
          = rest.any (beats tn threshold bs) := by
        simp [List.any_cons, hbeat]
      rw [hanyc, runMax_cons_of_not_beat tn threshold bs c rest hbeat]
      by_cases hr : rest.any (beats tn threshold bs) = true
      · rw [if_pos hr, if_pos hr]
        have hne2 : ¬ (candScore tn c = runMax tn threshold bs rest) := by
          intro hceq
          have hgt : bs < runMax tn threshold bs rest :=
            runMax_gt_of_any tn threshold bs rest hr
          have hth : threshold ≤ runMax tn threshold bs rest := by
            rcases runMax_choice tn threshold bs rest with h | ⟨d, _, hdb, hdeq⟩
            · rw [h] at hgt
              exact absurd hgt (lt_irrefl bs)
            · rw [hdeq]
              exact ((beats_iff _ _ _ _).mp hdb).2
          have : beats tn threshold bs c = true :=
            (beats_iff _ _ _ _).mpr ⟨hceq ▸ hgt, hceq ▸ hth⟩
          rw [this] at hbeat
          exact Bool.true_eq_false.mp hbeat
        rw [List.find?_cons_of_neg _ (by simp [hne2])]
      · rw [if_neg hr, if_neg hr]

theorem fbmLoop_exact (tn : String) (threshold : ℚ) :
    ∀ (l : List String) (c : String),
      l.find? (fun d => decide (normalize_text d = tn)) = some c →
      ∀ acc, fbmLoop tn threshold l acc = (some c, 1) := by
  intro l
  induction l with
  | nil => intro c h; simp at h
  | cons d rest ih =>
    intro c h acc
    obtain ⟨bm, bs⟩ := acc
    by_cases hd : normalize_text d = tn
    · rw [List.find?_cons_of_pos _ (by simp [hd])] at h
      injection h with h
      subst h
      simp only [fbmLoop, if_pos hd.symm]
    · rw [List.find?_cons_of_neg _ (by simp [hd])] at h
      have hd2 : ¬ (tn = normalize_text d) := fun hh => hd hh.symm
      simp only [fbmLoop, if_neg hd2]
      by_cases htw : (wordSet tn).Nonempty
      · rw [if_pos htw]
        by_cases hcond : bs < candScore tn d ∧ threshold ≤ candScore tn d
        · rw [if_pos hcond]
          exact ih c h _
        · rw [if_neg hcond]
          exact ih c h _
      · rw [if_neg htw]
        exact ih c h _

theorem fbmLoop_noWords (tn : String) (threshold : ℚ) :
    ∀ (l : List String) (bm : Option String) (bs : ℚ),
      (∀ c ∈ l, normalize_text c ≠ tn) →
      ¬ (wordSet tn).Nonempty →
      fbmLoop tn threshold l (bm, bs) = (bm, bs) := by
  intro l
  induction l with
  | nil => intro bm bs _ _; rfl
  | cons d rest ih =>
    intro bm bs hne htw
    have hd2 : ¬ (tn = normalize_text d) :=
      fun hh => hne d (List.mem_cons_self _ _) hh.symm
    simp only [fbmLoop, if_neg hd2, if_neg htw]
    exact ih bm bs (fun c hc => hne c (List.mem_cons_of_mem _ hc)) htw

theorem find_best_match_eq_spec (target : String) (candidates : List String)
    (threshold : ℚ) (hth : 0 < threshold) :
    find_best_match target candidates threshold
      = specBestMatch target candidates threshold := by
  unfold find_best_match specBestMatch
  cases hfind : candidates.find?
      (fun c => decide (normalize_text c = normalize_text target)) with
  | some c =>
    exact fbmLoop_exact (normalize_text target) threshold candidates c hfind (none, 0)
  | none =>
    have hne : ∀ c ∈ candidates, normalize_text c ≠ normalize_text target := by
      intro c hc
      have := List.find?_eq_none.mp hfind c hc
      simpa using this
    have hscore : specScore target = candScore (normalize_text target) := rfl
    by_cases htw : (wordSet (normalize_text target)).Nonempty
    · rw [if_neg (not_not_intro htw)]
      rw [fbmLoop_char (normalize_text target) threshold candidates none 0 hne htw]
      have hfilter : candidates.filter (fun c => decide (threshold ≤ specScore target c))
          = candidates.filter (beats (normalize_text target) threshold 0) := by
        apply List.filter_congr
        intro c _
        by_cases hsc : threshold ≤ candScore (normalize_text target) c
        · have h0 : (0:ℚ) < candScore (normalize_text target) c :=
            lt_of_lt_of_le hth hsc
          simp [beats, hscore, hsc, h0]
        · simp [beats, hscore, hsc]
      rw [hfilter, hscore]
      by_cases hany : candidates.any (beats (normalize_text target) threshold 0) = true
      · rw [if_pos hany]
        have hnil : candidates.filter (beats (normalize_text target) threshold 0) ≠ [] := by
          intro hn
          rcases List.any_eq_true.mp hany with ⟨c, hc, hcb⟩
          rw [List.filter_eq_nil_iff] at hn
          exact hn c hc (by simp [hcb])
        rw [show (candidates.filter (beats (normalize_text target) threshold 0)).isEmpty
            = false from by
          cases hh : (candidates.filter (beats (normalize_text target) threshold 0)).isEmpty
          · rfl
          · exact absurd (List.isEmpty_iff.mp hh) hnil]
        rw [if_neg (by simp)]
        rw [show ((candidates.filter (beats (normalize_text target) threshold 0)).map
            (candScore (normalize_text target))).foldl max 0
            = runMax (normalize_text target) threshold 0 candidates from rfl]
        cases hf2 : candidates.find? (fun c => decide (candScore (normalize_text target) c
            = runMax (normalize_text target) threshold 0 candidates)) with
        | some c => rfl
        | none =>
          exfalso
          have h0 : (0:ℚ) < runMax (normalize_text target) threshold 0 candidates :=
            runMax_gt_of_any _ _ _ _ hany
          rcases runMax_choice (normalize_text target) threshold 0 candidates with h
            | ⟨d, hdl, _, hdeq⟩
          · rw [h] at h0
            exact lt_irrefl _ h0
          · have hnd := List.find?_eq_none.mp hf2 d hdl
            simp only [decide_eq_true_eq] at hnd
            exact hnd hdeq.symm
      · rw [if_neg hany]
        have hnil : candidates.filter (beats (normalize_text target) threshold 0) = [] := by
          rw [List.filter_eq_nil_iff]
          intro a ha hba
          exact hany (List.any_eq_true.mpr ⟨a, ha, by simpa using hba⟩)
        rw [hnil]
        rfl
    · rw [if_pos htw]
      exact fbmLoop_noWords (normalize_text target) threshold candidates none 0 hne htw

theorem isPrefixOf_refl : ∀ l : List Char, l.isPrefixOf l = true := by
  intro l
  induction l with
  | nil => rfl
  | cons c cs ih => simp [List.isPrefixOf, ih]

theorem pySubstr_refl (t : String) : pySubstr t t = true := by
  unfold pySubstr
  cases h : t.toList with
  | nil => rfl
  | cons c rest => simp [listInfix, isPrefixOf_refl]

mutual

theorem findAllNode_eq_filter (tags : List String) :
    ∀ n : Node, findAllNode tags n = (allElemsNode n).filter (isTagIn tags)
  | .text _ => rfl
  | .elem tag attrs children => by
    rw [findAllNode, allElemsNode, List.filter_cons,
      findAllList_eq_filter tags children]
    cases h : tags.contains tag
    · have h2 : ¬ tag ∈ tags := by simpa using h
      simp [isTagIn, h, h2]
    · have h2 : tag ∈ tags := by simpa using h
      simp [isTagIn, h, h2]

theorem findAllList_eq_filter (tags : List String) :
    ∀ ns : List Node, findAllList tags ns = (allElemsList ns).filter (isTagIn tags)
  | [] => rfl
  | n :: ns => by
    rw [findAllList, allElemsList, List.filter_append,
      findAllNode_eq_filter tags n, findAllList_eq_filter tags ns]

end

theorem filterMap_filter_eq {α β : Type} (p : α → Bool) (f : α → Option β) :
    ∀ l : List α, (l.filter p).filterMap f
      = l.filterMap (fun a => if p a then f a else none) := by
  intro l
  induction l with
  | nil => rfl
  | cons a l ih =>
    cases h : p a
    · rw [List.filter_cons_of_neg (by simp [h])]
      rw [List.filterMap_cons]
      simp only [h, Bool.false_eq_true, if_false]
      exact ih
    · rw [List.filter_cons_of_pos h]
      rw [List.filterMap_cons, List.filterMap_cons]
      simp only [h, if_true]
      cases f a <;> simp [ih]

theorem filterMap_congr_mem {α β : Type} (f g : α → Option β) :
    ∀ l : List α, (∀ a ∈ l, f a = g a) → l.filterMap f = l.filterMap g := by
  intro l
  induction l with
  | nil => intro _; rfl
  | cons a l ih =>
    intro h
    rw [List.filterMap_cons, List.filterMap_cons, h a (List.mem_cons_self _ _),
      ih (fun b hb => h b (List.mem_cons_of_mem _ hb))]

theorem foldl_mainTextStep_inv (P : List (String × List String) → Prop)
    (hpara : ∀ secs cur t, P secs → P (paraStep secs cur t))
    (hhead : ∀ secs t, P secs → P (headingStep secs t).1) :
    ∀ (ns : List Node) (st : List (String × List String) × String),
      P st.1 → P ((ns.foldl mainTextStep st)).1 := by
  intro ns
  induction ns with
  | nil => intro st h; exact h
  | cons n ns ih =>
    intro st h
    rw [List.foldl_cons]
    apply ih
    cases n with
    | text s => exact h
    | elem tag attrs children =>
      simp only [mainTextStep]
      by_cases h1 : tag ∈ heading_tags
      · rw [if_pos h1]
        exact hhead _ _ h
      · rw [if_neg h1]
        by_cases h2 : tag = "p" ∨ tag = "div"
        · rw [if_pos h2]
          exact hpara _ _ _ h
        · rw [if_neg h2]
          exact h

theorem sectAppend_keys (secs : List (String × List String)) (k t : String) :
    (sectAppend secs k t).map Prod.fst = secs.map Prod.fst := by
  unfold sectAppend
  rw [List.map_map]
  apply List.map_congr_left
  intro p _
  by_cases h : p.1 = k
  · simp [h]
  · simp [h]

theorem paraStep_keys (secs : List (String × List String)) (cur t : String) :
    (paraStep secs cur t).map Prod.fst = secs.map Prod.fst := by
  unfold paraStep
  by_cases h : ((t != "") && (sectGet secs cur).all (fun e => !pySubstr t e)) = true
  · rw [if_pos h]
    exact sectAppend_keys secs cur t
  · rw [if_neg h]

theorem sectGet_of_mem (secs : List (String × List String)) (k : String)
    (l : List String) (hnd : (secs.map Prod.fst).Nodup)
    (hmem : (k, l) ∈ secs) : sectGet secs k = l := by
  induction secs with
  | nil => simp at hmem
  | cons p rest ih =>
    rcases List.mem_cons.mp hmem with h | h
    · unfold sectGet
      rw [List.find?_cons_of_pos _ (by simp [← h])]
      rw [← h]
      rfl
    · have hk : ¬ (p.1 == k) = true := by
        simp only [beq_iff_eq]
        intro he
        rw [List.map_cons, List.nodup_cons] at hnd
        apply hnd.1
        rw [he]
        exact List.mem_map_of_mem Prod.fst h
      have hfind : List.find? (fun r => r.1 == k) (p :: rest)
          = List.find? (fun r => r.1 == k) rest :=
        List.find?_cons_of_neg rest hk
      unfold sectGet
      rw [hfind]
      exact ih (by rw [List.map_cons, List.nodup_cons] at hnd; exact hnd.2) h

theorem paraStep_entries_nodup (secs : List (String × List String))
    (cur t : String) (hknd : (secs.map Prod.fst).Nodup)
    (hall : ∀ p ∈ secs, p.2.Nodup) :
    ∀ p ∈ paraStep secs cur t, p.2.Nodup := by
  unfold paraStep
  by_cases hc : ((t != "") && (sectGet secs cur).all (fun e => !pySubstr t e)) = true
  · rw [if_pos hc]
    intro p hp
    unfold sectAppend at hp
    rcases List.mem_map.mp hp with ⟨q, hq, hpq⟩
    by_cases hqk : q.1 = cur
    · rw [if_pos hqk] at hpq
      rw [← hpq]
      have hq2 : q.2.Nodup := hall q hq
      have hget : sectGet secs cur = q.2 := by
        apply sectGet_of_mem secs cur q.2 hknd
        rw [← hqk]
        exact hq
      have htnotmem : t ∉ q.2 := by
        intro hm
        rcases Bool.and_eq_true_iff.mp hc with ⟨_, hall2⟩
        have h3 := List.all_eq_true.mp hall2 t (by rw [hget]; exact hm)
        rw [pySubstr_refl] at h3
        simp at h3
      simp [List.nodup_append, hq2, htnotmem]
    · rw [if_neg hqk] at hpq
      rw [← hpq]
      exact hall q hq
  · rw [if_neg hc]
    exact hall

/-- Invariant maintained by the `main_text` loop: section keys are unique,
the default section is present, and every section's paragraph list is
duplicate-free. -/
def SecsInv (secs : List (String × List String)) : Prop :=
  (secs.map Prod.fst).Nodup ∧ "Main Content" ∈ secs.map Prod.fst ∧
    ∀ p ∈ secs, p.2.Nodup

theorem paraStep_inv (secs : List (String × List String)) (cur t : String)
    (h : SecsInv secs) : SecsInv (paraStep secs cur t) := by
  obtain ⟨h1, h2, h3⟩ := h
  refine ⟨?_, ?_, ?_⟩
  · rw [paraStep_keys]
    exact h1
  · rw [paraStep_keys]
    exact h2
  · exact paraStep_entries_nodup secs cur t h1 h3

theorem headingStep_inv (secs : List (String × List String)) (t : String)
    (h : SecsInv secs) : SecsInv (headingStep secs t).1 := by
  obtain ⟨h1, h2, h3⟩ := h
  unfold headingStep
  by_cases hmem : t ∈ secs.map Prod.fst
  · rw [if_pos hmem]
    exact ⟨h1, h2, h3⟩
  · rw [if_neg hmem]
    refine ⟨?_, ?_, ?_⟩
    · rw [List.map_append]
      simp [List.nodup_append, h1, hmem]
    · rw [List.map_append]
      exact List.mem_append_left _ h2
    · intro p hp
      rcases List.mem_append.mp hp with h | h
      · exact h3 p h
      · simp only [List.mem_singleton] at h
        rw [h]
        exact List.nodup_nil

theorem extract_main_text_inv (doc : List Node) :
    SecsInv (extract_main_text doc) := by
  unfold extract_main_text
  apply foldl_mainTextStep_inv SecsInv paraStep_inv headingStep_inv
  refine ⟨by simp, by simp, ?_⟩
  intro p hp
  simp only [List.mem_singleton] at hp
  rw [hp]
  exact List.nodup_nil

/- ===== Claim theorems ===== -/

/-- C1 (amended: for `"click sign up"` the classifier returns `Navigation`
with target `"sign"`, not `"sign up"`): `classify("go back")` is `Back`,
`classify("show me the pricing section")` is `Section` with name
`"pricing"`, `classify("click sign up")` is `Navigation` with target
`"sign"` — the lazy capturing group `([^"\']+?)` followed by `(?:\s|$)`
stops at the first space — and `classify("asdkjfh")` is `Unknown` carrying
the original raw text `"asdkjfh"`. -/
theorem c1_classifier_examples :
    parse_user_command "go back" = Command.back ∧
    parse_user_command "show me the pricing section"
      = Command.sectionCmd "pricing" "pricing" ∧
    parse_user_command "click sign up" = Command.navigation "sign" "sign" ∧
    parse_user_command "asdkjfh" = Command.unknown "asdkjfh" :=
  ⟨by decide, by decide, by decide, by decide⟩

/-- C1 counterexample: on `"click sign up"` the classifier does not return
`Navigation` with target `"sign up"`; the lazy group of the third navigation
pattern captures only `"sign"`. -/
theorem c1_click_sign_up_counterexample :
    parse_user_command "click sign up" ≠ Command.navigation "sign up" "sign up" ∧
    parse_user_command "click sign up" = Command.navigation "sign" "sign" :=
  ⟨by decide, by decide⟩

/-- C2 (amended: for positive thresholds, which includes the default 0.5):
`find_best_match` refines the specification `specBestMatch` — exact
normalized equality short-circuits with score 1.0, otherwise the
highest-scoring candidate at or above the threshold is returned with the
first candidate winning ties, and the result is `(none, 0)` when no
candidate reaches the threshold or the target's word set is empty; in
particular on `("sign up", ["Sign Up Now", "Log In"], 0.5)` it returns
`("Sign Up Now", 1.0)`.  At non-positive thresholds the code deviates from
the spec sentence (see the counterexample), because the loop's strict
`overlap > best_score` comparison starts from `best_score = 0`. -/
theorem c2_find_best_match_refines_spec :
    (∀ (target : String) (candidates : List String) (threshold : ℚ),
        0 < threshold →
        find_best_match target candidates threshold
          = specBestMatch target candidates threshold) ∧
    find_best_match "sign up" ["Sign Up Now", "Log In"] (mkRat 1 2)
      = (some "Sign Up Now", 1) :=
  ⟨find_best_match_eq_spec, by decide⟩

/-- C2 witness: the refinement theorem applied at a concrete input. -/
theorem c2_find_best_match_refines_spec_witness :
    find_best_match "sign up" ["Sign Up Now", "Log In"] (mkRat 1 2)
      = specBestMatch "sign up" ["Sign Up Now", "Log In"] (mkRat 1 2) :=
  c2_find_best_match_refines_spec.1 "sign up" ["Sign Up Now", "Log In"]
    (mkRat 1 2) (by decide)

/-- C2 counterexample: at threshold `0` the candidate `"b"` scores `0`, which
is at-or-above the threshold, so the claim as stated demands `("b", 0.0)`;
the code returns `(none, 0.0)` because it requires `overlap > best_score`
with `best_score` initialized to `0`. -/
theorem c2_threshold_zero_counterexample :
    find_best_match "a" ["b"] 0 = (none, 0) ∧
    specBestMatch "a" ["b"] 0 = (some "b", 0) :=
  ⟨by decide, by decide⟩

/-- C10: whenever the normalized input contains one of the `Back` phrases
(`"back"`, `"previous page"`, `"go back"`, `"return"`) as a substring —
including inside a longer word, as in `"go to the background section"` or
`"show returns policy"` — the classifier returns `Back`, because the
special-command phrase check runs before every section and navigation
pattern. -/
theorem c10_back_precedence :
    (∀ input : String,
        containsAnyPhrase back_phrases (normalize_text input) = true →
        parse_user_command input = Command.back) ∧
    parse_user_command "go to the background section" = Command.back ∧
    parse_user_command "show returns policy" = Command.back := by
  refine ⟨?_, by decide, by decide⟩
  intro input h
  simp [parse_user_command, h]

/-- C10 witness: the precedence theorem applied at a concrete input. -/
theorem c10_back_precedence_witness :
    parse_user_command "take me back please" = Command.back :=
  c10_back_precedence.1 "take me back please" (by decide)

/-- C3: on a session with empty navigation history, `back()` fails with
`NoHistory` and leaves the session unchanged; a successful `click` pushes
exactly the pre-click `current_url` onto the history stack before replacing
the page state; and `back()` right after one click pops the stack and
restores the prior URL exactly (the session differs from the pre-click one
only in the freshly re-extracted page). -/
theorem c3_session_back_click (s : Session) (pg pg2 : PageModel) (u : String) :
    (s.navigation_history = [] → go_back s pg = (s, some AgentError.NoHistory)) ∧
    ((click_link s true u pg).2 = none ∧
      (click_link s true u pg).1.navigation_history
        = s.navigation_history ++ [s.current_url]) ∧
    go_back (click_link s true u pg).1 pg2
      = ({ s with current_page := some pg2 }, none) := by
  refine ⟨?_, ⟨?_, ?_⟩, ?_⟩
  · intro h
    simp [go_back, h]
  · simp [click_link]
  · simp [click_link]
  · simp [click_link, go_back, List.getLast?_concat, List.dropLast_concat]

/-- C3 witness: the theorem applied to a fresh session. -/
theorem c3_session_back_click_witness :
    go_back ⟨none, none, [], [], none⟩ ⟨"", [], [], [], []⟩
      = (⟨none, none, [], [], none⟩, some AgentError.NoHistory) :=
  (c3_session_back_click ⟨none, none, [], [], none⟩ ⟨"", [], [], [], []⟩
    ⟨"", [], [], [], []⟩ "u").1 rfl

/-- C4: the locator tries the four strategies in order (exact link text,
partial link text, case-insensitive text content of any element, then
aria-label/title/alt attributes), stops at the first success, and when every
stage fails it returns `none` (the embedding is a total function — no
exception escapes); in particular if stages 1-3 fail, the result is exactly
the attribute stage's, so an `aria-label` match is returned. -/
theorem c4_locator_cascade (dom : List DomElem) (target : String) :
    (∀ e, byLinkText dom target = some e →
        find_and_click_element dom target = some e) ∧
    (byLinkText dom target = none →
      ∀ e, byPartialLinkText dom target = some e →
        find_and_click_element dom target = some e) ∧
    (byLinkText dom target = none → byPartialLinkText dom target = none →
      ∀ e, byTextContent dom target = some e →
        find_and_click_element dom target = some e) ∧
    (byLinkText dom target = none → byPartialLinkText dom target = none →
      byTextContent dom target = none →
      find_and_click_element dom target = byAttr dom target) ∧
    (byLinkText dom target = none → byPartialLinkText dom target = none →
      byTextContent dom target = none → byAttr dom target = none →
      find_and_click_element dom target = none) := by
  refine ⟨?_, ?_, ?_, ?_, ?_⟩
  · intro e h1
    simp [find_and_click_element, h1, Option.orElse]
  · intro h1 e h2
    simp [find_and_click_element, h1, h2, Option.orElse]
  · intro h1 h2 e h3
    simp [find_and_click_element, h1, h2, h3, Option.orElse]
  · intro h1 h2 h3
    simp [find_and_click_element, h1, h2, h3, Option.orElse]
  · intro h1 h2 h3 h4
    simp [find_and_click_element, h1, h2, h3, h4, Option.orElse]

/-- C4 witness: stages 1-3 fail but an `aria-label` matches, so the locator
returns the attribute stage's element. -/
theorem c4_locator_cascade_witness :
    find_and_click_element
        [⟨true, "home", none, none, none, true⟩,
          ⟨false, "", some "menu", none, none, true⟩] "menu"
      = byAttr
        [⟨true, "home", none, none, none, true⟩,
          ⟨false, "", some "menu", none, none, true⟩] "menu" :=
  (c4_locator_cascade
    [⟨true, "home", none, none, none, true⟩,
      ⟨false, "", some "menu", none, none, true⟩] "menu").2.2.2.1
    (by decide) (by decide) (by decide)

/-- C5 (amended: the dedup guarantees at most one entry for a given text —
exactly one only when the text is actually appended, i.e. when no earlier
entry of the section already contains it as a substring): a
paragraph/container's flattened stripped text is appended to the current
section only if no existing entry of that section contains it as a
substring; consequently every section's paragraph list is duplicate-free,
so any text occurs at most once in it. -/
theorem c5_section_dedup :
    (∀ (secs : List (String × List String)) (cur t : String),
        (sectGet secs cur).any (fun e => pySubstr t e) = true →
        paraStep secs cur t = secs) ∧
    (∀ doc : List Node, ∀ p ∈ extract_main_text doc, p.2.Nodup) ∧
    (∀ (doc : List Node) (k t : String),
        (sectGet (extract_main_text doc) k).count t ≤ 1) := by
  refine ⟨?_, ?_, ?_⟩
  · intro secs cur t h
    have hfalse : ((sectGet secs cur).all (fun e => !pySubstr t e)) = false := by
      rcases List.any_eq_true.mp h with ⟨e, he, hpe⟩
      cases hall : (sectGet secs cur).all (fun e => !pySubstr t e)
      · rfl
      · have h2 := List.all_eq_true.mp hall e he
        rw [hpe] at h2
        simp at h2
    unfold paraStep
    rw [if_neg (by simp [hfalse])]
  · intro doc
    exact (extract_main_text_inv doc).2.2
  · intro doc k t
    cases hf : (extract_main_text doc).find? (fun p => p.1 == k) with
    | none =>
      unfold sectGet
      rw [hf]
      simp
    | some p =>
      have hp : p ∈ extract_main_text doc := List.mem_of_find?_eq_some hf
      have hnd := (extract_main_text_inv doc).2.2 p hp
      unfold sectGet
      rw [hf]
      simpa using List.nodup_iff_count_le_one.mp hnd t

/-- C5 witness: the dedup step applied at a concrete state. -/
theorem c5_section_dedup_witness :
    paraStep [("Main Content", ["ab"])] "Main Content" "a"
      = [("Main Content", ["ab"])] :=
  c5_section_dedup.1 [("Main Content", ["ab"])] "Main Content" "a" (by decide)

/-- C5 counterexample: the outer and inner `div` are two nested containers
both yielding the text `"a"` under the section `"Main Content"`, yet the
section's list holds no entry equal to `"a"` (zero, not exactly one),
because the earlier paragraph entry `"ab"` already contains `"a"` as a
substring and the dedup check therefore rejects both appends. -/
theorem c5_nested_dup_counterexample :
    paraText (Node.elem "div" [] [Node.elem "div" [] [Node.text "a"]]) = "a" ∧
    paraText (Node.elem "div" [] [Node.text "a"]) = "a" ∧
    extract_main_text
        [Node.elem "p" [] [Node.text "ab"],
          Node.elem "div" [] [Node.elem "div" [] [Node.text "a"]]]
      = [("Main Content", ["ab"])] ∧
    (sectGet (extract_main_text
        [Node.elem "p" [] [Node.text "ab"],
          Node.elem "div" [] [Node.elem "div" [] [Node.text "a"]]])
        "Main Content").count "a" = 0 :=
  ⟨by decide, by decide, by decide, by decide⟩

/-- C6: for every document, the extracted `main_text` mapping has a section
keyed `"Main Content"`, its keys are unique, and a heading starts a new
section only if no section with that title already exists (a heading whose
title is an existing key leaves the mapping unchanged). -/
theorem c6_sections (doc : List Node) :
    "Main Content" ∈ (extract_main_text doc).map Prod.fst ∧
    ((extract_main_text doc).map Prod.fst).Nodup ∧
    (∀ (secs : List (String × List String)) (t : String),
        t ∈ secs.map Prod.fst → (headingStep secs t).1 = secs) := by
  refine ⟨(extract_main_text_inv doc).2.1, (extract_main_text_inv doc).1, ?_⟩
  intro secs t h
  unfold headingStep
  rw [if_pos h]

/-- C6 witness: the theorem applied at a concrete document and state. -/
theorem c6_sections_witness :
    (headingStep [("Main Content", [])] "Main Content").1
      = [("Main Content", [])] :=
  (c6_sections []).2.2 [("Main Content", [])] "Main Content" (by decide)

/-- C8: the extracted headings are exactly the level-1 to level-3 headings
with non-empty stripped text among all elements of the document, in DOM
document order (so empty-text headings are skipped and `h4`-or-deeper
headings never appear), and every extracted heading has level 1, 2 or 3 and
non-empty text. -/
theorem c8_heading_extraction (doc : List Node) :
    extract_headings doc = (allElemsList doc).filterMap headingSpecEntry ∧
    ∀ h ∈ extract_headings doc,
      (h.level = 1 ∨ h.level = 2 ∨ h.level = 3) ∧ h.text ≠ "" := by
  have hmain : extract_headings doc
      = (allElemsList doc).filterMap headingSpecEntry := by
    unfold extract_headings
    rw [findAllList_eq_filter heading_tags doc, filterMap_filter_eq]
    apply filterMap_congr_mem
    intro n _
    cases n with
    | text s => rfl
    | elem tag attrs children =>
      by_cases htag : tag = "h1" ∨ tag = "h2" ∨ tag = "h3"
      · have hc : isTagIn heading_tags (Node.elem tag attrs children) = true := by
          rcases htag with h | h | h <;> rw [h] <;> rfl
        rw [hc]
        simp only [if_true]
        simp only [headingEntry, headingSpecEntry]
        by_cases hempty : pyStrip (nodeText (Node.elem tag attrs children)) = ""
        · rw [if_pos hempty, if_neg (fun hcontra => hcontra.2 hempty)]
        · rw [if_neg hempty, if_pos ⟨htag, hempty⟩]
      · have hc : isTagIn heading_tags (Node.elem tag attrs children) = false := by
          cases hcc : isTagIn heading_tags (Node.elem tag attrs children)
          · rfl
          · exfalso
            apply htag
            have : tag ∈ heading_tags := by simpa [isTagIn] using hcc
            simpa [heading_tags] using this
        rw [hc]
        simp only [Bool.false_eq_true, if_false]
        simp only [headingSpecEntry]
        rw [if_neg (fun hcontra => htag hcontra.1)]
  refine ⟨hmain, ?_⟩
  intro h hmem
  rw [hmain] at hmem
  rcases List.mem_filterMap.mp hmem with ⟨n, _, hn⟩
  cases n with
  | text s => simp [headingSpecEntry] at hn
  | elem tag attrs children =>
    simp only [headingSpecEntry] at hn
    by_cases hcond : (tag = "h1" ∨ tag = "h2" ∨ tag = "h3") ∧
        pyStrip (nodeText (Node.elem tag attrs children)) ≠ ""
    · rw [if_pos hcond] at hn
      injection hn with hn
      rw [← hn]
      refine ⟨?_, hcond.2⟩
      rcases hcond.1 with h1 | h1 | h1 <;> rw [h1]
      · exact Or.inl rfl
      · exact Or.inr (Or.inl rfl)
      · exact Or.inr (Or.inr rfl)
    · rw [if_neg hcond] at hn
      exact absurd hn (by simp)

/-- C8 witness: the heading characterization applied at a concrete document. -/
theorem c8_heading_extraction_witness :
    ((⟨"Title", 1, "top"⟩ : Heading).level = 1 ∨
      (⟨"Title", 1, "top"⟩ : Heading).level = 2 ∨
      (⟨"Title", 1, "top"⟩ : Heading).level = 3) ∧
    (⟨"Title", 1, "top"⟩ : Heading).text ≠ "" :=
  (c8_heading_extraction [Node.elem "h1" [("id", "top")] [Node.text "Title"]]).2
    ⟨"Title", 1, "top"⟩ (by decide)

/-- C7: `navigate_to_url` replaces `current_url` (with the scheme-completed
URL) and `current_page`, and leaves the navigation history stack, the
conversation history and the current section unchanged — history is pushed
only by the link-click branch, never by direct URL navigation. -/
theorem c7_navigate_frame (s : Session) (url : String) (pg : PageModel) :
    (navigate_to_url s url pg).current_url = some (withScheme url) ∧
    (navigate_to_url s url pg).current_page = some pg ∧
    (navigate_to_url s url pg).navigation_history = s.navigation_history ∧
    (navigate_to_url s url pg).conversation_history = s.conversation_history ∧
    (navigate_to_url s url pg).current_section = s.current_section ∧
    (click_link s true url pg).1.navigation_history
      = s.navigation_history ++ [s.current_url] :=
  ⟨rfl, rfl, rfl, rfl, rfl, rfl⟩

/-- C9: `normalize_text` lowercases, collapses whitespace runs to single
spaces and trims; it is idempotent (`normalize(normalize(x)) == normalize(x)`
for every string `x`) and case/whitespace-insensitive, e.g. on
`"  Pricing   PLAN "` versus `"pricing plan"`. -/
theorem c9_normalize_idempotent :
    (∀ x : String, normalize_text (normalize_text x) = normalize_text x) ∧
    normalize_text "  Pricing   PLAN " = normalize_text "pricing plan" := by
  constructor
  · exact normalize_text_idem
  · decide

end Agent
